import Mathlib

/-!
Shallow embedding of `src/serial.c` (interrupt-driven UART ring-buffer driver).

Modelling conventions:
* `unsigned char` arrays become total functions `Nat → Nat`; the C code only
  ever indexes them with values already reduced `mod` the buffer size.
* The C `int`/`unsigned char` index variables become `Nat`; all arithmetic the
  code performs on them is non-negative and already carries the explicit
  `% BUFFER_SIZE` of the source.
* Hardware registers are modelled by the fields the code reads/writes:
  `udre` is the `UDRE0` flag of `UCSR0A` (data register empty), `udrie` is the
  `UDRIE0` bit of `UCSR0B` (drain interrupt armed), and writes to `UDR0` are
  recorded on a trace field `output`.
* The build has `__AVR_ATmega328P__` undefined, so `RX_BUFFER_SIZE = 64`
  (the `#else` branch of the conditional at the top of the file).
-/

namespace Serial

/-- RX_BUFFER_SIZE from serial.c (the non-ATmega328P branch of the ifdef). -/
def RX_BUFFER_SIZE : Nat := 64

/-- TX_BUFFER_SIZE from serial.c. -/
def TX_BUFFER_SIZE : Nat := 16

/-- The bytes logically stored in a ring buffer: reading `count` slots starting
at index `tail`, wrapping modulo `cap`.  This is the standard contents
abstraction for the head/tail ring buffers of serial.c. -/
def ringPending (storage : Nat → Nat) (cap : Nat) : Nat → Nat → List Nat
  | _, 0 => []
  | t, n + 1 => storage t :: ringPending storage cap ((t + 1) % cap) n

theorem ringPending_length (storage : Nat → Nat) (cap : Nat) :
    ∀ (n t : Nat), (ringPending storage cap t n).length = n := by
  intro n
  induction n with
  | zero => intro t; rfl
  | succ n ih => intro t; simp [ringPending, ih]

theorem mod_cycle_ne (cap t k : Nat) (ht : t < cap) (hk0 : 0 < k) (hk : k < cap) :
    (t + k) % cap ≠ t := by
  intro h
  rcases Nat.lt_or_ge (t + k) cap with h1 | h1
  · rw [Nat.mod_eq_of_lt h1] at h
    omega
  · have h2 : t + k - cap < cap := by omega
    have h3 : (t + k) % cap = t + k - cap := by
      rw [Nat.mod_eq_sub_mod h1, Nat.mod_eq_of_lt h2]
    omega

/-- Appending one byte at the head slot of a ring buffer extends its logical
contents on the right. -/
theorem ringPending_push (storage : Nat → Nat) (cap c : Nat) :
    ∀ (n t : Nat), t < cap → n + 1 < cap →
      ringPending (Function.update storage ((t + n) % cap) c) cap t (n + 1) =
        ringPending storage cap t n ++ [c] := by
  intro n
  induction n with
  | zero =>
    intro t ht _
    have h0 : (t + 0) % cap = t := by
      rw [Nat.add_zero]
      exact Nat.mod_eq_of_lt ht
    rw [h0]
    simp [ringPending, Function.update_same]
  | succ n ih =>
    intro t ht hn
    have hne : t ≠ (t + (n + 1)) % cap :=
      (mod_cycle_ne cap t (n + 1) ht (by omega) (by omega)).symm
    have hidx : t + (n + 1) = (t + 1) + n := by omega
    have hstep : (t + (n + 1)) % cap = ((t + 1) % cap + n) % cap := by
      rw [hidx, Nat.mod_add_mod]
    have ht' : (t + 1) % cap < cap := Nat.mod_lt _ (by omega)
    show Function.update storage ((t + (n + 1)) % cap) c t ::
        ringPending (Function.update storage ((t + (n + 1)) % cap) c) cap
          ((t + 1) % cap) (n + 1) =
      (storage t :: ringPending storage cap ((t + 1) % cap) n) ++ [c]
    rw [Function.update_noteq hne, hstep, ih ((t + 1) % cap) ht' (by omega)]
    simp

/-- Logical contents are empty exactly when the slot count is zero. -/
theorem ringPending_eq_nil_iff (storage : Nat → Nat) (cap n t : Nat) :
    ringPending storage cap t n = [] ↔ n = 0 := by
  constructor
  · intro h
    have := ringPending_length storage cap n t
    rw [h] at this
    simpa using this.symm
  · intro h
    subst h
    rfl

/-- State of the receive side: `rx_buffer`, `rx_buffer_head`, `rx_buffer_tail`
from serial.c. -/
structure RxState where
  rx_buffer : Nat → Nat
  rx_buffer_head : Nat
  rx_buffer_tail : Nat

/-- Initial RX state: both indices 0, array zero-initialised (C static data). -/
def rxInit : RxState := ⟨fun _ => 0, 0, 0⟩

/-- serialAnyAvailable from serial.c: `rx_buffer_head != rx_buffer_tail`. -/
def serialAnyAvailable (s : RxState) : Bool :=
  s.rx_buffer_head != s.rx_buffer_tail

/-- serialRead from serial.c, translated branch-for-branch.  Note the source
tests `if (serialAnyAvailable())` and returns -1 in THAT branch; the else
branch consumes `rx_buffer[rx_buffer_tail]`. -/
def serialRead (s : RxState) : Int × RxState :=
  if serialAnyAvailable s then
    (-1, s)
  else
    (((s.rx_buffer s.rx_buffer_tail : Nat) : Int),
      { s with rx_buffer_tail := (s.rx_buffer_tail + 1) % RX_BUFFER_SIZE })

/-- serialFlush from serial.c: `rx_buffer_head = rx_buffer_tail`. -/
def serialFlush (s : RxState) : RxState :=
  { s with rx_buffer_head := s.rx_buffer_tail }

/-- USART_RX_vect from serial.c: store the incoming byte `c` at the head and
advance it, unless the advanced head would hit the tail (buffer full), in
which case the byte is dropped and the state is untouched. -/
def usartRxVect (c : Nat) (s : RxState) : RxState :=
  if (s.rx_buffer_head + 1) % RX_BUFFER_SIZE ≠ s.rx_buffer_tail then
    { s with
      rx_buffer := Function.update s.rx_buffer s.rx_buffer_head c,
      rx_buffer_head := (s.rx_buffer_head + 1) % RX_BUFFER_SIZE }
  else
    s

/-- Number of buffered RX bytes. -/
def rxCount (s : RxState) : Nat :=
  (RX_BUFFER_SIZE + s.rx_buffer_head - s.rx_buffer_tail) % RX_BUFFER_SIZE

/-- Logical contents of the RX ring buffer. -/
def rxPending (s : RxState) : List Nat :=
  ringPending s.rx_buffer RX_BUFFER_SIZE s.rx_buffer_tail (rxCount s)

/-- Deliver a list of bytes to the receive interrupt handler, one at a time. -/
def rxReceiveList (s : RxState) (bs : List Nat) : RxState :=
  bs.foldl (fun t c => usartRxVect c t) s

/-- State of the transmit side: `tx_buffer`, `tx_buffer_head`,
`tx_buffer_tail`, the two hardware bits the code touches (`udre` = UDRE0 of
UCSR0A, `udrie` = UDRIE0 of UCSR0B) and the trace of bytes written to UDR0. -/
structure TxState where
  tx_buffer : Nat → Nat
  tx_buffer_head : Nat
  tx_buffer_tail : Nat
  udrie : Bool
  udre : Bool
  output : List Nat

/-- Initial TX state: indices 0, interrupt disarmed, data register empty
(UDRE0 is set after hardware reset), nothing emitted yet. -/
def txInit : TxState := ⟨fun _ => 0, 0, 0, false, true, []⟩

/-- serialWrite from serial.c.  The source's local `newhead` is inlined as
`(tx_buffer_head + 1) % TX_BUFFER_SIZE`.  The busy-wait
`while (newhead == tx_buffer_tail);` blocks until the drain interrupt frees a
slot; a call that would spin is modelled as `none` (the call has not
completed), so a completed call is `some` of the post-state. -/
def serialWrite (c : Nat) (s : TxState) : Option TxState :=
  if s.udre = false ∨ s.tx_buffer_head ≠ s.tx_buffer_tail then
    if (s.tx_buffer_head + 1) % TX_BUFFER_SIZE = s.tx_buffer_tail then
      none
    else
      some { s with
        tx_buffer := Function.update s.tx_buffer s.tx_buffer_head c,
        tx_buffer_head := (s.tx_buffer_head + 1) % TX_BUFFER_SIZE,
        udrie := true }
  else
    some { s with output := s.output ++ [c], udre := false }

/-- USART_UDRE_vect from serial.c: emit `tx_buffer[tail]` to UDR0, advance the
tail, and clear UDRIE0 exactly when the advanced tail meets the head.  The
source's local `tail` is inlined. -/
def usartUdreVect (s : TxState) : TxState :=
  { s with
    output := s.output ++ [s.tx_buffer s.tx_buffer_tail],
    udre := false,
    udrie :=
      if (s.tx_buffer_tail + 1) % TX_BUFFER_SIZE = s.tx_buffer_head then
        false
      else
        s.udrie,
    tx_buffer_tail := (s.tx_buffer_tail + 1) % TX_BUFFER_SIZE }

/-- Number of buffered TX bytes. -/
def txCount (s : TxState) : Nat :=
  (TX_BUFFER_SIZE + s.tx_buffer_head - s.tx_buffer_tail) % TX_BUFFER_SIZE

/-- Logical contents of the TX ring buffer. -/
def txPending (s : TxState) : List Nat :=
  ringPending s.tx_buffer TX_BUFFER_SIZE s.tx_buffer_tail (txCount s)

/-- A transmit-side system configuration: the TX state plus the ghost trace of
bytes submitted through serialWrite, used to state the exactly-once/in-order
property. -/
structure Sys where
  tx : TxState
  written : List Nat

/-- Initial system configuration. -/
def sysInit : Sys := ⟨txInit, []⟩

/-- One atomic step of the transmit system: a completed serialWrite call, a
firing of the drain interrupt (enabled only while UDRIE0 is set and UDRE0 is
ready, which is when the hardware raises it), or the hardware becoming ready
to accept a byte again. -/
inductive Step : Sys → Sys → Prop where
  | write (c : Nat) (y : Sys) (t : TxState)
      (h : serialWrite c y.tx = some t) : Step y ⟨t, y.written ++ [c]⟩
  | drain (y : Sys) (h1 : y.tx.udrie = true) (h2 : y.tx.udre = true) :
      Step y ⟨usartUdreVect y.tx, y.written⟩
  | ready (y : Sys) : Step y ⟨{ y.tx with udre := true }, y.written⟩

/-- Configurations reachable from the initial one by any interleaving of
serialWrite calls, drain-handler firings and hardware-ready events. -/
inductive Reachable : Sys → Prop where
  | init : Reachable sysInit
  | step {y z : Sys} : Reachable y → Step y z → Reachable z

/-- The transmit-system invariant: indices in range, the UDR0 trace followed
by the buffered bytes is exactly the submitted sequence, and UDRIE0 is set
exactly when the buffer is non-empty. -/
def SysInv (y : Sys) : Prop :=
  y.tx.tx_buffer_head < TX_BUFFER_SIZE ∧
  y.tx.tx_buffer_tail < TX_BUFFER_SIZE ∧
  y.tx.output ++ txPending y.tx = y.written ∧
  (y.tx.udrie = true ↔ txPending y.tx ≠ [])

/-- Digit-to-character table of printIntegerInBase:
`'0' + d` for `d < 10`, else `'A' + d - 10` (byte values). -/
def toDigitChar (d : Nat) : Nat :=
  if d < 10 then 48 + d else 65 + d - 10

/-- The digit-extraction loop of printIntegerInBase
(`while (n > 0) { buf[i++] = n % base; n /= base; }`), producing the
little-endian digit list `buf`.  The loop terminates because `n` strictly
decreases; `fuel` bounds the iteration count (any `fuel ≥ n` is enough, and
the loop guard also requires `2 ≤ base`, the precondition under which the C
division makes progress). -/
def digitLoopAux (base : Nat) : Nat → Nat → List Nat
  | _, 0 => []
  | n, fuel + 1 =>
    if 0 < n ∧ 2 ≤ base then
      n % base :: digitLoopAux base (n / base) fuel
    else
      []

/-- The digit buffer produced by printIntegerInBase's loop for input `n`. -/
def digitLoop (base n : Nat) : List Nat :=
  digitLoopAux base n n

/-- printIntegerInBase from serial.c as the byte sequence it emits: '0' alone
for n = 0, otherwise the buffered digits printed from the top of the buffer
down (most-significant first), each mapped through the digit-character
table. -/
def printIntegerInBase (n base : Nat) : List Nat :=
  if n = 0 then
    [48]
  else
    ((digitLoop base n).reverse).map toDigitChar

/-- printInteger from serial.c as the byte sequence it emits: a leading '-'
and negation for negative input, then the base-10 digits. -/
def printInteger (n : Int) : List Nat :=
  if n < 0 then
    45 :: printIntegerInBase (-n).toNat 10
  else
    printIntegerInBase n.toNat 10

/-- Concrete RX state with exactly one byte (65) buffered: head 1, tail 0. -/
def rxOneByte : RxState := ⟨fun _ => 65, 1, 0⟩

/-- Concrete RX state with head = 1, tail = 0 and all-zero storage, used to
exhibit serialFlush's direction of assignment. -/
def rxFlushCase : RxState := ⟨fun _ => 0, 1, 0⟩

/-- Concrete full RX state: 63 buffered bytes (head 63, tail 0). -/
def rxFull : RxState := ⟨fun _ => 0, 63, 0⟩

/-- Concrete empty RX state with nonzero stale storage, head = tail = 5. -/
def rxStale : RxState := ⟨fun _ => 15, 5, 5⟩

/-- Concrete TX state with two buffered bytes and the interrupt armed. -/
def txTwoBytes : TxState := ⟨fun _ => 7, 2, 0, true, true, []⟩

theorem digitLoopAux_eq_digits (base : Nat) (hb : 2 ≤ base) :
    ∀ (fuel n : Nat), n ≤ fuel → digitLoopAux base n fuel = Nat.digits base n := by
  intro fuel
  induction fuel with
  | zero =>
    intro n hn
    have hz : n = 0 := by omega
    subst hz
    simp [digitLoopAux]
  | succ fuel ih =>
    intro n hn
    show (if 0 < n ∧ 2 ≤ base then
        n % base :: digitLoopAux base (n / base) fuel else []) = Nat.digits base n
    by_cases h0 : 0 < n
    · have hdiv : n / base < n := Nat.div_lt_self h0 (by omega)
      rw [if_pos ⟨h0, hb⟩, ih (n / base) (by omega)]
      exact (Nat.digits_def' (b := base) (by omega) h0).symm
    · have hz : n = 0 := by omega
      subst hz
      simp

/-- The loop of printIntegerInBase computes exactly the base-`base` digit
expansion (little-endian) for any base of at least 2. -/
theorem digitLoop_eq_digits (base n : Nat) (hb : 2 ≤ base) :
    digitLoop base n = Nat.digits base n :=
  digitLoopAux_eq_digits base hb n n (Nat.le_refl n)

/-- Filling the RX buffer from its initial state: the tail never moves, the
head tracks the number of accepted bytes (capped at 63), and the buffered
contents are precisely the first 63 delivered bytes. -/
theorem rx_fill_spec (bs : List Nat) :
    (rxReceiveList rxInit bs).rx_buffer_tail = 0 ∧
    (rxReceiveList rxInit bs).rx_buffer_head = min bs.length 63 ∧
    rxPending (rxReceiveList rxInit bs) = bs.take 63 := by
  induction bs using List.reverseRecOn with
  | nil =>
    refine ⟨rfl, rfl, ?_⟩
    decide
  | append_singleton bs c ih =>
    obtain ⟨htail, hhead, hpend⟩ := ih
    have hstep : rxReceiveList rxInit (bs ++ [c]) =
        usartRxVect c (rxReceiveList rxInit bs) := by
      simp [rxReceiveList, List.foldl_append]
    set S := rxReceiveList rxInit bs with hS
    rw [hstep]
    by_cases hlen : bs.length < 63
    · have hhead' : S.rx_buffer_head = bs.length := by rw [hhead]; omega
      have hi : (S.rx_buffer_head + 1) % RX_BUFFER_SIZE = S.rx_buffer_head + 1 := by
        simp only [RX_BUFFER_SIZE]
        exact Nat.mod_eq_of_lt (by omega)
      have hcond : (S.rx_buffer_head + 1) % RX_BUFFER_SIZE ≠ S.rx_buffer_tail := by
        rw [hi, htail]
        omega
      rw [usartRxVect, if_pos hcond]
      refine ⟨htail, ?_, ?_⟩
      · show (S.rx_buffer_head + 1) % RX_BUFFER_SIZE = min (bs ++ [c]).length 63
        rw [hi, hhead']
        simp only [List.length_append, List.length_cons, List.length_nil]
        omega
      · show ringPending (Function.update S.rx_buffer S.rx_buffer_head c)
            RX_BUFFER_SIZE S.rx_buffer_tail
            ((RX_BUFFER_SIZE + (S.rx_buffer_head + 1) % RX_BUFFER_SIZE -
              S.rx_buffer_tail) % RX_BUFFER_SIZE) = (bs ++ [c]).take 63
        have hcount : (RX_BUFFER_SIZE + (S.rx_buffer_head + 1) % RX_BUFFER_SIZE -
            S.rx_buffer_tail) % RX_BUFFER_SIZE = bs.length + 1 := by
          simp only [RX_BUFFER_SIZE]
          omega
        have hidx : S.rx_buffer_head =
            (S.rx_buffer_tail + bs.length) % RX_BUFFER_SIZE := by
          simp only [RX_BUFFER_SIZE]
          omega
        rw [hcount, hidx,
          ringPending_push S.rx_buffer RX_BUFFER_SIZE c bs.length S.rx_buffer_tail
            (by simp only [RX_BUFFER_SIZE]; omega)
            (by simp only [RX_BUFFER_SIZE]; omega)]
        have hcS : rxCount S = bs.length := by
          simp only [rxCount, RX_BUFFER_SIZE]
          omega
        have hpS : ringPending S.rx_buffer RX_BUFFER_SIZE S.rx_buffer_tail
            bs.length = bs.take 63 := by
          rw [← hcS]
          exact hpend
        rw [hpS, List.take_of_length_le (by omega),
          List.take_of_length_le (by simp; omega)]
    · have hhead' : S.rx_buffer_head = 63 := by rw [hhead]; omega
      have hcond : ¬ ((S.rx_buffer_head + 1) % RX_BUFFER_SIZE ≠ S.rx_buffer_tail) := by
        simp only [RX_BUFFER_SIZE, hhead', htail]
        omega
      rw [usartRxVect, if_neg hcond]
      refine ⟨htail, ?_, ?_⟩
      · rw [hhead]
        simp only [List.length_append, List.length_cons, List.length_nil]
        omega
      · rw [hpend, List.take_append_of_le_length (by omega)]

theorem sysInv_init : SysInv sysInit := by
  refine ⟨by decide, by decide, by decide, by decide⟩

theorem sysInv_step {y z : Sys} (hy : SysInv y) (hs : Step y z) : SysInv z := by
  obtain ⟨hh, ht, hout, hiff⟩ := hy
  cases hs with
  | write c yy t hw =>
    by_cases hcond : (y.tx.udre = false ∨ y.tx.tx_buffer_head ≠ y.tx.tx_buffer_tail)
    · simp only [serialWrite] at hw
      rw [if_pos hcond] at hw
      by_cases hfull :
          ((y.tx.tx_buffer_head + 1) % TX_BUFFER_SIZE = y.tx.tx_buffer_tail)
      · rw [if_pos hfull] at hw
        exact absurd hw (by simp)
      · rw [if_neg hfull] at hw
        have hw' := Option.some.inj hw
        subst hw'
        simp only [TX_BUFFER_SIZE] at hh ht hfull
        have hcnt : txCount { y.tx with
            tx_buffer := Function.update y.tx.tx_buffer y.tx.tx_buffer_head c,
            tx_buffer_head := (y.tx.tx_buffer_head + 1) % TX_BUFFER_SIZE,
            udrie := true } = txCount y.tx + 1 := by
          simp only [txCount, TX_BUFFER_SIZE]
          omega
        have hlt : txCount y.tx + 1 < 16 := by
          simp only [txCount, TX_BUFFER_SIZE]
          omega
        have hidx : y.tx.tx_buffer_head =
            (y.tx.tx_buffer_tail + txCount y.tx) % TX_BUFFER_SIZE := by
          simp only [txCount, TX_BUFFER_SIZE]
          omega
        have hpend' : txPending { y.tx with
            tx_buffer := Function.update y.tx.tx_buffer y.tx.tx_buffer_head c,
            tx_buffer_head := (y.tx.tx_buffer_head + 1) % TX_BUFFER_SIZE,
            udrie := true } = txPending y.tx ++ [c] := by
          rw [txPending, hcnt]
          show ringPending
              (Function.update y.tx.tx_buffer y.tx.tx_buffer_head c)
              TX_BUFFER_SIZE y.tx.tx_buffer_tail (txCount y.tx + 1) = _
          rw [hidx]
          exact ringPending_push y.tx.tx_buffer TX_BUFFER_SIZE c
            (txCount y.tx) y.tx.tx_buffer_tail
            (by simp only [TX_BUFFER_SIZE]; omega)
            (by simp only [TX_BUFFER_SIZE]; omega)
        refine ⟨?_, ?_, ?_, ?_⟩
        · show (y.tx.tx_buffer_head + 1) % TX_BUFFER_SIZE < TX_BUFFER_SIZE
          simp only [TX_BUFFER_SIZE]
          omega
        · show y.tx.tx_buffer_tail < TX_BUFFER_SIZE
          simp only [TX_BUFFER_SIZE]
          omega
        · show y.tx.output ++ txPending _ = y.written ++ [c]
          rw [hpend', ← List.append_assoc, hout]
        · show (true = true) ↔ txPending _ ≠ []
          rw [hpend']
          simp
    · simp only [serialWrite] at hw
      rw [if_neg hcond] at hw
      have hw' := Option.some.inj hw
      subst hw'
      push_neg at hcond
      obtain ⟨hudre, heq⟩ := hcond
      have hc0 : txCount y.tx = 0 := by
        simp only [txCount, TX_BUFFER_SIZE]
        omega
      have hp0 : txPending y.tx = [] := by
        rw [txPending, hc0]
        rfl
      have hudrie : y.tx.udrie = false := by
        cases hud : y.tx.udrie
        · rfl
        · exact absurd (hiff.mp hud) (by rw [hp0]; simp)
      have hpfix : txPending { y.tx with
          output := y.tx.output ++ [c], udre := false } = txPending y.tx := rfl
      refine ⟨hh, ht, ?_, ?_⟩
      · show (y.tx.output ++ [c]) ++ txPending _ = y.written ++ [c]
        rw [hpfix, hp0]
        rw [hp0] at hout
        simp only [List.append_nil] at hout
        simp [hout]
      · show (y.tx.udrie = true) ↔ txPending _ ≠ []
        rw [hpfix, hp0, hudrie]
        simp
  | drain yy hd1 hd2 =>
    simp only [TX_BUFFER_SIZE] at hh ht
    have hpne : txPending y.tx ≠ [] := hiff.mp hd1
    have hcpos : txCount y.tx ≠ 0 := by
      intro h
      apply hpne
      rw [txPending, h]
      rfl
    obtain ⟨n, hn⟩ : ∃ n, txCount y.tx = n + 1 :=
      ⟨txCount y.tx - 1, by omega⟩
    have hpend_cons : txPending y.tx = y.tx.tx_buffer y.tx.tx_buffer_tail ::
        ringPending y.tx.tx_buffer TX_BUFFER_SIZE
          ((y.tx.tx_buffer_tail + 1) % TX_BUFFER_SIZE) n := by
      rw [txPending, hn]
      rfl
    have hcn : (TX_BUFFER_SIZE + y.tx.tx_buffer_head - y.tx.tx_buffer_tail) %
        TX_BUFFER_SIZE = n + 1 := by
      rw [← txCount, hn]
    simp only [TX_BUFFER_SIZE] at hcn
    have hcnt' : txCount (usartUdreVect y.tx) = n := by
      simp only [txCount, usartUdreVect, TX_BUFFER_SIZE]
      omega
    have hpend' : txPending (usartUdreVect y.tx) =
        ringPending y.tx.tx_buffer TX_BUFFER_SIZE
          ((y.tx.tx_buffer_tail + 1) % TX_BUFFER_SIZE) n := by
      rw [txPending, hcnt']
      rfl
    refine ⟨?_, ?_, ?_, ?_⟩
    · show y.tx.tx_buffer_head < TX_BUFFER_SIZE
      simp only [TX_BUFFER_SIZE]
      omega
    · show (y.tx.tx_buffer_tail + 1) % TX_BUFFER_SIZE < TX_BUFFER_SIZE
      simp only [TX_BUFFER_SIZE]
      omega
    · show (y.tx.output ++ [y.tx.tx_buffer y.tx.tx_buffer_tail]) ++
          txPending (usartUdreVect y.tx) = y.written
      rw [hpend', List.append_assoc]
      rw [hpend_cons] at hout
      simpa using hout
    · show ((if (y.tx.tx_buffer_tail + 1) % TX_BUFFER_SIZE = y.tx.tx_buffer_head
          then false else y.tx.udrie) = true) ↔
          txPending (usartUdreVect y.tx) ≠ []
      rw [hpend', hd1]
      have hlen := ringPending_length y.tx.tx_buffer TX_BUFFER_SIZE n
        ((y.tx.tx_buffer_tail + 1) % TX_BUFFER_SIZE)
      by_cases hz : (y.tx.tx_buffer_tail + 1) % TX_BUFFER_SIZE = y.tx.tx_buffer_head
      · have hn0 : n = 0 := by
          simp only [TX_BUFFER_SIZE] at hz
          omega
        rw [if_pos hz, hn0]
        simp [ringPending]
      · have hn0 : n ≠ 0 := by
          simp only [TX_BUFFER_SIZE] at hz ⊢
          omega
        rw [if_neg hz]
        constructor
        · intro _ hnil
          rw [hnil] at hlen
          simp at hlen
          omega
        · intro _
          rfl
  | ready yy =>
    exact ⟨hh, ht, hout, hiff⟩

/-- Every reachable transmit-system configuration satisfies the invariant. -/
theorem sysInv_reachable {y : Sys} (h : Reachable y) : SysInv y := by
  induction h with
  | init => exact sysInv_init
  | step hr hs ih => exact sysInv_step ih hs

/-- C1: the claim states serialRead returns -1 iff serialAnyAvailable is
false.  Evaluating the code: on a state with one buffered byte it reports
available yet returns -1, and on the empty initial state it reports
not-available yet returns the stale stored byte 0 instead of -1.  The branch
condition of serialRead is inverted relative to the claim and to the code's
own comment. -/
theorem C1_read_polarity_bug :
    serialAnyAvailable rxOneByte = true ∧ (serialRead rxOneByte).1 = -1 ∧
    serialAnyAvailable rxInit = false ∧ (serialRead rxInit).1 = 0 := by
  refine ⟨rfl, rfl, rfl, rfl⟩

/-- C2: evaluating the code on the failing input of the FIFO claim: deliver
the single byte 65 to the empty receive buffer, then read once; the code
returns -1, not 65, because serialRead's availability test is inverted. -/
theorem C2_fifo_order_bug :
    (serialRead (usartRxVect 65 rxInit)).1 = -1 := by
  decide

/-- C3 counterexample: on the state with head = 1 and tail = 0, serialFlush
neither sets tail to the entry value of head (tail stays 0) nor leaves head
unchanged (head becomes 0): the assignment in the code is head := tail, not
tail := head. -/
theorem C3_counterexample :
    ¬ ((serialFlush rxFlushCase).rx_buffer_tail = rxFlushCase.rx_buffer_head ∧
       (serialFlush rxFlushCase).rx_buffer_head = rxFlushCase.rx_buffer_head) := by
  decide

/-- C3 (amended): serialFlush empties the receive buffer by assigning
head := tail: after it runs, head equals the value tail had at entry, tail
and the stored bytes are unchanged (head follows tail, never the reverse),
and no data is reported available. -/
theorem C3_flush_spec (s : RxState) :
    (serialFlush s).rx_buffer_head = s.rx_buffer_tail ∧
    (serialFlush s).rx_buffer_tail = s.rx_buffer_tail ∧
    (serialFlush s).rx_buffer = s.rx_buffer ∧
    serialAnyAvailable (serialFlush s) = false := by
  refine ⟨rfl, rfl, rfl, ?_⟩
  simp [serialAnyAvailable, serialFlush]

/-- C4: starting from the empty buffer, any delivered byte sequence leaves
exactly its first RX_BUFFER_SIZE - 1 = 63 bytes buffered in arrival order;
and any state already holding 63 bytes absorbs a further byte with the whole
state (head, tail and all stored bytes) unchanged. -/
theorem C4_rx_overflow_policy :
    (∀ bs : List Nat,
      rxPending (rxReceiveList rxInit bs) = bs.take (RX_BUFFER_SIZE - 1)) ∧
    (∀ (s : RxState) (c : Nat), s.rx_buffer_head < RX_BUFFER_SIZE →
      s.rx_buffer_tail < RX_BUFFER_SIZE → rxCount s = RX_BUFFER_SIZE - 1 →
      usartRxVect c s = s) := by
  constructor
  · intro bs
    have h := (rx_fill_spec bs).2.2
    simpa [RX_BUFFER_SIZE] using h
  · intro s c hh ht hc
    have hcond : ¬ ((s.rx_buffer_head + 1) % RX_BUFFER_SIZE ≠ s.rx_buffer_tail) := by
      simp only [rxCount, RX_BUFFER_SIZE] at hc
      simp only [RX_BUFFER_SIZE] at hh ht ⊢
      omega
    rw [usartRxVect, if_neg hcond]

/-- C4 witness: a 65-byte burst retains exactly the first 63 bytes, and one
further byte into the concrete full state rxFull is dropped outright. -/
theorem C4_witness :
    rxPending (rxReceiveList rxInit (List.range 65)) =
      (List.range 65).take (RX_BUFFER_SIZE - 1) ∧
    usartRxVect 9 rxFull = rxFull :=
  ⟨C4_rx_overflow_policy.1 (List.range 65),
   C4_rx_overflow_policy.2 rxFull 9 (by decide) (by decide) (by decide)⟩

/-- C5: in every configuration reachable by any interleaving of completed
serialWrite calls, drain-handler firings and hardware-ready events (calls and
handler firings are the atomic units the single-interrupt platform
serialises; the buffered branch of serialWrite stores the byte and advances
head in the same atomic step that arms the interrupt, in the order the source
fixes), the bytes emitted to UDR0 followed by the bytes still buffered are
exactly the submitted bytes in submission order — every written byte is
emitted exactly once, in order, as the buffer drains — and UDRIE0 is set if
and only if the transmit buffer is non-empty. -/
theorem C5_tx_exactly_once_and_armed_iff_nonempty (y : Sys)
    (h : Reachable y) :
    y.tx.output ++ txPending y.tx = y.written ∧
    (y.tx.udrie = true ↔ txPending y.tx ≠ []) := by
  have hi := sysInv_reachable h
  exact ⟨hi.2.2.1, hi.2.2.2⟩

/-- C5 witness: instantiation at the initial configuration. -/
theorem C5_witness :
    sysInit.tx.output ++ txPending sysInit.tx = sysInit.written ∧
    (sysInit.tx.udrie = true ↔ txPending sysInit.tx ≠ []) :=
  C5_tx_exactly_once_and_armed_iff_nonempty sysInit Reachable.init

/-- C6: one firing of the drain handler appends tx_buffer[tail] to the UDR0
trace, advances tail modulo TX_BUFFER_SIZE, disables the interrupt exactly
when the advanced tail equals head, and never modifies head. -/
theorem C6_drain_handler_spec (s : TxState) (h : s.udrie = true) :
    (usartUdreVect s).output = s.output ++ [s.tx_buffer s.tx_buffer_tail] ∧
    (usartUdreVect s).tx_buffer_tail = (s.tx_buffer_tail + 1) % TX_BUFFER_SIZE ∧
    ((usartUdreVect s).udrie = false ↔
      (s.tx_buffer_tail + 1) % TX_BUFFER_SIZE = s.tx_buffer_head) ∧
    (usartUdreVect s).tx_buffer_head = s.tx_buffer_head := by
  refine ⟨rfl, rfl, ?_, rfl⟩
  show (if (s.tx_buffer_tail + 1) % TX_BUFFER_SIZE = s.tx_buffer_head then false
      else s.udrie) = false ↔ _
  by_cases hc : (s.tx_buffer_tail + 1) % TX_BUFFER_SIZE = s.tx_buffer_head
  · rw [if_pos hc]
    simp [hc]
  · rw [if_neg hc, h]
    simp [hc]

/-- C6 witness: the concrete armed two-byte state txTwoBytes. -/
theorem C6_witness :
    (usartUdreVect txTwoBytes).output =
      txTwoBytes.output ++ [txTwoBytes.tx_buffer txTwoBytes.tx_buffer_tail] ∧
    (usartUdreVect txTwoBytes).tx_buffer_tail =
      (txTwoBytes.tx_buffer_tail + 1) % TX_BUFFER_SIZE ∧
    ((usartUdreVect txTwoBytes).udrie = false ↔
      (txTwoBytes.tx_buffer_tail + 1) % TX_BUFFER_SIZE =
        txTwoBytes.tx_buffer_head) ∧
    (usartUdreVect txTwoBytes).tx_buffer_head = txTwoBytes.tx_buffer_head :=
  C6_drain_handler_spec txTwoBytes rfl

/-- C7: when the data register is ready (UDRE0 set) and the transmit buffer
is empty (head = tail), serialWrite takes the fast path: the byte goes
straight to UDR0 while head, tail and the stored bytes stay untouched, so the
buffer is empty before and after the call. -/
theorem C7_fast_path (s : TxState) (c : Nat) (h1 : s.udre = true)
    (h2 : s.tx_buffer_head = s.tx_buffer_tail) :
    serialWrite c s = some { s with output := s.output ++ [c], udre := false } ∧
    txCount s = 0 ∧
    txCount { s with output := s.output ++ [c], udre := false } = 0 := by
  have hcond : ¬ (s.udre = false ∨ s.tx_buffer_head ≠ s.tx_buffer_tail) := by
    simp [h1, h2]
  refine ⟨?_, ?_, ?_⟩
  · rw [serialWrite, if_neg hcond]
  · simp only [txCount, TX_BUFFER_SIZE, h2]
    omega
  · simp only [txCount, TX_BUFFER_SIZE, h2]
    omega

/-- C7 witness: writing byte 65 in the initial idle state. -/
theorem C7_witness :
    serialWrite 65 txInit =
      some { txInit with output := txInit.output ++ [65], udre := false } ∧
    txCount txInit = 0 ∧
    txCount { txInit with output := txInit.output ++ [65], udre := false } = 0 :=
  C7_fast_path txInit 65 rfl rfl

/-- C8: printInteger(-42) emits the bytes 45,52,50 = '-','4','2';
printIntegerInBase(255,16) emits 70,70 = 'F','F'; printIntegerInBase(0,base)
emits the single byte 48 = '0'; and for every positive n and base between 2
and 36 the emitted bytes are exactly the base-base digits of n, most
significant first, each rendered through the '0'-'9'/'A'-'Z' table. -/
theorem C8_print_integer_correct :
    printInteger (-42) = [45, 52, 50] ∧
    printIntegerInBase 255 16 = [70, 70] ∧
    (∀ base : Nat, printIntegerInBase 0 base = [48]) ∧
    (∀ n base : Nat, 0 < n → 2 ≤ base → base ≤ 36 →
      printIntegerInBase n base =
        ((Nat.digits base n).map toDigitChar).reverse) := by
  refine ⟨by decide, by decide, fun base => rfl, ?_⟩
  intro n base hn hb _
  rw [printIntegerInBase, if_neg (by omega), digitLoop_eq_digits base n hb,
    List.map_reverse]

/-- C8 witness: the general digit clause instantiated at n = 255, base = 16. -/
theorem C8_witness :
    printIntegerInBase 255 16 = ((Nat.digits 16 255).map toDigitChar).reverse :=
  C8_print_integer_correct.2.2.2 255 16 (by decide) (by decide) (by decide)

/-- C9: calling serialRead on an empty buffer (head = tail) returns the stale
byte rx_buffer[tail] instead of the sentinel, advances tail past head leaving
head in place, and afterwards serialAnyAvailable reports true with
RX_BUFFER_SIZE - 1 = 63 bytes counted as available although none arrived. -/
theorem C9_empty_read_underflow (s : RxState)
    (hh : s.rx_buffer_head < RX_BUFFER_SIZE)
    (ht : s.rx_buffer_tail < RX_BUFFER_SIZE)
    (he : s.rx_buffer_head = s.rx_buffer_tail) :
    (serialRead s).1 = ((s.rx_buffer s.rx_buffer_tail : Nat) : Int) ∧
    (serialRead s).2.rx_buffer_tail = (s.rx_buffer_tail + 1) % RX_BUFFER_SIZE ∧
    (serialRead s).2.rx_buffer_head = s.rx_buffer_head ∧
    serialAnyAvailable (serialRead s).2 = true ∧
    rxCount (serialRead s).2 = RX_BUFFER_SIZE - 1 := by
  have hna : serialAnyAvailable s = false := by
    simp [serialAnyAvailable, he]
  have hread : serialRead s = (((s.rx_buffer s.rx_buffer_tail : Nat) : Int),
      { s with rx_buffer_tail := (s.rx_buffer_tail + 1) % RX_BUFFER_SIZE }) := by
    simp [serialRead, hna]
  rw [hread]
  refine ⟨rfl, rfl, rfl, ?_, ?_⟩
  · simp only [serialAnyAvailable, RX_BUFFER_SIZE, bne_iff_ne, ne_eq,
      decide_eq_true_eq]
    simp only [RX_BUFFER_SIZE] at hh ht
    omega
  · simp only [rxCount, RX_BUFFER_SIZE]
    simp only [RX_BUFFER_SIZE] at hh ht
    omega

/-- C9 witness: the concrete empty state rxStale (head = tail = 5, stale
contents 15). -/
theorem C9_witness :
    (serialRead rxStale).1 = ((15 : Nat) : Int) ∧
    (serialRead rxStale).2.rx_buffer_tail = (5 + 1) % RX_BUFFER_SIZE ∧
    (serialRead rxStale).2.rx_buffer_head = 5 ∧
    serialAnyAvailable (serialRead rxStale).2 = true ∧
    rxCount (serialRead rxStale).2 = RX_BUFFER_SIZE - 1 :=
  C9_empty_read_underflow rxStale (by decide) (by decide) rfl

/-- C10: the digit-extraction loop of printIntegerInBase makes progress (n
strictly decreases each iteration for any base of at least 2) and, for any
32-bit unsigned long input, runs at most 8 * sizeof(long) = 32 iterations, so
the index into the 32-entry digit array never exceeds the bound. -/
theorem C10_digit_loop_terminates :
    (∀ n base : Nat, 2 ≤ base → 0 < n → n / base < n) ∧
    (∀ n base : Nat, 2 ≤ base → n < 2 ^ 32 →
      (digitLoop base n).length ≤ 32) := by
  constructor
  · intro n base hb hn
    exact Nat.div_lt_self hn (by omega)
  · intro n base hb hn
    rw [digitLoop_eq_digits base n hb]
    by_cases h0 : n = 0
    · subst h0
      simp
    · rw [Nat.digits_len base n (by omega) h0]
      have hlog : Nat.log base n < 32 :=
        Nat.log_lt_of_lt_pow h0 (lt_of_lt_of_le hn (Nat.pow_le_pow_left hb 32))
      omega

/-- C10 witness: the largest 32-bit value in base 2. -/
theorem C10_witness :
    (4294967295 / 2 < 4294967295) ∧ (digitLoop 2 4294967295).length ≤ 32 :=
  ⟨C10_digit_loop_terminates.1 4294967295 2 (by decide) (by decide),
   C10_digit_loop_terminates.2 4294967295 2 (by decide) (by decide)⟩

end Serial
